import Mathlib

/- Verification development for the IP-extraction pipeline of src/main.py.

   Shallow embedding conventions:
   - raw file bytes and chunks are List Nat (byte values 0..255);
   - candidate strings produced by the scanner are ASCII (digits and dots),
     also represented as List Nat of their byte values;
   - Python sets are modelled as duplicate-free lists, set union as
     concatenation followed by dedup;
   - the regex IP_PATTERN and re.findall are modelled operationally, following
     the backtracking engine: alternatives in order, greedy options first,
     leftmost non-overlapping scanning. -/

namespace IPExtract

/-- ASCII decimal digit byte (48..57). -/
def isDigitB (b : Nat) : Bool := 48 ≤ b && b ≤ 57

/-- Word byte for the bytes-regex boundary assertion: [A-Za-z0-9_]. -/
def isWordB (b : Nat) : Bool :=
  isDigitB b || (65 ≤ b && b ≤ 90) || (97 ≤ b && b ≤ 122) || b == 95

/-- The dot byte. -/
def dotB : Nat := 46

/-- First alternative of the octet group of IP_PATTERN: 25[0-5]. -/
def alt1 : List Nat → List (List Nat)
  | a :: b :: c :: _ =>
    if a = 50 && b = 53 && (48 ≤ c && c ≤ 53) then [[a, b, c]] else []
  | _ => []

/-- Second alternative of the octet group: 2[0-4][0-9]. -/
def alt2 : List Nat → List (List Nat)
  | a :: b :: c :: _ =>
    if a = 50 && (48 ≤ b && b ≤ 52) && isDigitB c then [[a, b, c]] else []
  | _ => []

/-- Third alternative [01]?[0-9][0-9]? with the optional [01] taken; the two
    resulting lengths are listed in the engine's greedy preference order. -/
def alt3with : List Nat → List (List Nat)
  | a :: b :: c :: _ =>
    if (a = 48 || a = 49) && isDigitB b then
      if isDigitB c then [[a, b, c], [a, b]] else [[a, b]]
    else []
  | [a, b] => if (a = 48 || a = 49) && isDigitB b then [[a, b]] else []
  | _ => []

/-- Third alternative with the optional [01] skipped: [0-9][0-9]?. -/
def alt3without : List Nat → List (List Nat)
  | a :: b :: _ =>
    if isDigitB a then
      if isDigitB b then [[a, b], [a]] else [[a]]
    else []
  | [a] => if isDigitB a then [[a]] else []
  | _ => []

/-- All ways the octet group of IP_PATTERN can match at the front of t, in the
    order the backtracking engine tries them. -/
def octetSegs (t : List Nat) : List (List Nat) :=
  alt1 t ++ alt2 t ++ alt3with t ++ alt3without t

/-- Word status of the first byte (false at end of input), for \b tests. -/
def headWord (t : List Nat) : Bool :=
  match t with
  | [] => false
  | b :: _ => isWordB b

/-- One octet group followed by a literal dot, then the continuation k; octet
    choices are tried in engine order and the token is assembled as
    seg ++ dot :: token-of-rest. -/
def matchOctDot (t : List Nat) (k : List Nat → Option (List Nat × List Nat)) :
    Option (List Nat × List Nat) :=
  (octetSegs t).findSome? fun seg =>
    match t.drop seg.length with
    | b :: t2 =>
      if b = dotB then (k t2).map fun p => (seg ++ dotB :: p.1, p.2) else none
    | [] => none

/-- Final octet group followed by the closing boundary assertion: the last
    matched byte is a digit, so \b holds iff the next byte is absent or
    non-word. Returns the matched token piece and the remaining input. -/
def matchLastOct (t : List Nat) : Option (List Nat × List Nat) :=
  (octetSegs t).findSome? fun seg =>
    let r := t.drop seg.length
    if headWord r then none else some (seg, r)

/-- Attempt IP_PATTERN at the current position: \b, then three octet-dot
    groups, then the final octet group and \b. prevWord is the word status of
    the byte immediately before the position (false at the start of input). -/
def matchIPHere (prevWord : Bool) (t : List Nat) : Option (List Nat × List Nat) :=
  if prevWord == headWord t then none
  else matchOctDot t fun t2 => matchOctDot t2 fun t3 => matchOctDot t3 matchLastOct

/-- re.findall scanning loop: try a match at each position, advance one byte on
    failure, continue right after the match on success (leftmost,
    non-overlapping). Fuel makes the recursion structural; each step strictly
    shortens the input, so length + 1 fuel is always enough. -/
def findAllAux (fuel : Nat) (prevWord : Bool) (t : List Nat) : List (List Nat) :=
  match fuel, t with
  | 0, _ => []
  | _ + 1, [] => []
  | fuel + 1, b :: rest =>
    match matchIPHere prevWord (b :: rest) with
    | some (tok, r) =>
      tok :: findAllAux fuel
        (match tok.getLast? with
         | some c => isWordB c
         | none => prevWord) r
    | none => findAllAux fuel (isWordB b) rest

/-- IP_PATTERN.findall on a byte chunk. -/
def findAll (t : List Nat) : List (List Nat) := findAllAux (t.length + 1) false t

/-- bytes.decode(utf-8, errors=ignore), as it acts on the scanner's matches:
    every match consists solely of ASCII digit and dot bytes (proved below),
    on which UTF-8 decoding is the identity embedding of bytes into
    characters. The model keeps the ASCII bytes and drops the high bytes that
    would begin or continue multi-byte sequences; on matches it is literally
    the identity. -/
def decodeIgnore (t : List Nat) : List Nat := t.filter (fun b => b < 128)

/-- str.split on the dot character, Python semantics: every dot separates,
    empty parts are kept, the empty string splits to one empty part. -/
def splitOnDot : List Nat → List (List Nat)
  | [] => [[]]
  | b :: rest =>
    if b = dotB then [] :: splitOnDot rest
    else
      match splitOnDot rest with
      | [] => [[b]]
      | p :: ps => (b :: p) :: ps

/-- ipaddress octet parse (CPython 3.9.5 and later): non-empty, at most three
    characters, all decimal digits, value at most 255, and no leading zero in
    a multi-digit octet. -/
def parseOctet (p : List Nat) : Option Nat :=
  if p = [] then none
  else if 3 < p.length then none
  else if !(p.all isDigitB) then none
  else
    let v := p.foldl (fun acc b => acc * 10 + (b - 48)) 0
    if 255 < v then none
    else if 1 < p.length && p.headI = 48 then none
    else some v

/-- ipaddress.ip_address restricted to the IPv4 dotted-quad form, returning
    the 32-bit integer value of the address. ip_address also accepts IPv6
    forms, but an IPv6 address is never a member of any entry of
    PRIVATE_NETWORKS (version mismatch makes the containment test false), so
    validate_ip treats it exactly like an unparsable string; the embedding
    folds that case into none. -/
def parseIPv4 (s : List Nat) : Option Nat :=
  match splitOnDot s with
  | [p1, p2, p3, p4] =>
    match parseOctet p1, parseOctet p2, parseOctet p3, parseOctet p4 with
    | some o1, some o2, some o3, some o4 =>
      some (o1 * 16777216 + o2 * 65536 + o3 * 256 + o4)
    | _, _, _, _ => none
  | _ => none

/-- IPv4Address.is_unspecified: the zero address. -/
def is_unspecified (a : Nat) : Bool := a == 0

/-- IPv4Address.is_reserved: membership in 240.0.0.0/4. -/
def is_reserved (a : Nat) : Bool := a / 268435456 == 15

/-- IPv4Address.is_multicast: membership in 224.0.0.0/4. -/
def is_multicast (a : Nat) : Bool := a / 268435456 == 14

/-- Membership of an address in an IPv4Network given as (network address,
    mask length): the top mask-length bits agree. -/
def inNetwork (a : Nat) (net : Nat × Nat) : Bool :=
  a / 2 ^ (32 - net.2) == net.1 / 2 ^ (32 - net.2)

/-- IPExtractor.PRIVATE_NETWORKS: 10.0.0.0/8, 172.16.0.0/12, 192.168.0.0/16
    as 32-bit network addresses with mask lengths. -/
def PRIVATE_NETWORKS : List (Nat × Nat) :=
  [(167772160, 8), (2886729728, 12), (3232235520, 16)]

/-- IPExtractor.validate_ip: true exactly when the string parses as an address
    that is not unspecified, reserved or multicast AND lies in one of the
    private networks; a parse failure (ValueError) is caught and yields false. -/
def validate_ip (s : List Nat) : Bool :=
  match parseIPv4 s with
  | none => false
  | some a =>
    !(is_unspecified a || is_reserved a || is_multicast a) &&
      PRIVATE_NETWORKS.any (inNetwork a)

/-- IPExtractor._process_chunk: the set of distinct decoded matches, each
    routed to the private part when validate_ip holds and to the public part
    otherwise (the Python sets are modelled as duplicate-free lists). -/
def process_chunk (chunk : List Nat) : List (List Nat) × List (List Nat) :=
  let ips := ((findAll chunk).map decodeIgnore).dedup
  (ips.filter (fun ip => validate_ip ip), ips.filter (fun ip => !validate_ip ip))

/-- file.read(chunk_size) loop, fuel-indexed for structural evaluation; each
    productive step strictly shortens the content, so length fuel is enough.
    read(0) returns the empty bytes object, which ends the loop at once. -/
def chunksOfAux (n : Nat) : Nat → List Nat → List (List Nat)
  | 0, _ => []
  | _ + 1, [] => []
  | fuel + 1, b :: rest =>
    if n = 0 then []
    else (b :: rest).take n :: chunksOfAux n fuel ((b :: rest).drop n)

/-- The chunk decomposition performed by extract_ips_from_file. -/
def chunksOf (n : Nat) (content : List Nat) : List (List Nat) :=
  chunksOfAux n content.length content

/-- Python string comparison restricted to ASCII strings: lexicographic
    comparison of the byte (code point) sequences. -/
def lexLe : List Nat → List Nat → Bool
  | [], _ => true
  | _ :: _, [] => false
  | a :: as', b :: bs' => if a < b then true else if b < a then false else lexLe as' bs'

/-- Propositional form of lexLe. -/
def LexLe (x y : List Nat) : Prop := lexLe x y = true

instance : DecidableRel LexLe := fun x y => inferInstanceAs (Decidable (lexLe x y = true))

/-- sorted(list(s)) on a set of distinct ASCII strings: any comparison sort
    agrees on duplicate-free input, modelled by insertion sort. -/
def sortLex (l : List (List Nat)) : List (List Nat) := l.insertionSort LexLe

/-- Result collection of extract_ips_from_file: per-chunk private and public
    sets unioned into the two accumulators. -/
def runChunks (chunks : List (List Nat)) : List (List Nat) × List (List Nat) :=
  (((chunks.map process_chunk).map Prod.fst).flatten.dedup,
   ((chunks.map process_chunk).map Prod.snd).flatten.dedup)

/-- IPExtractor.extract_ips_from_file. The file argument is none when the path
    does not name an existing regular file and some content otherwise;
    failAfter (some k) models an exception raised inside the try block after k
    chunk results were already collected: the handler logs the error and the
    call returns two empty lists, discarding every accumulated result. -/
def extract_ips_from_file (file : Option (List Nat)) (failAfter : Option Nat)
    (chunk_size : Nat) : List (List Nat) × List (List Nat) :=
  match file with
  | none => ([], [])
  | some content =>
    if content.length = 0 then ([], [])
    else
      match failAfter with
      | some _ => ([], [])
      | none =>
        let acc := runChunks (chunksOf chunk_size content)
        (sortLex acc.1, sortLex acc.2)

/-- One octet group of IP_PATTERN as a predicate on a complete byte string:
    25[0-5] or 2[0-4][0-9] or [01]?[0-9][0-9]?. -/
def octetB (p : List Nat) : Bool :=
  match p with
  | [a] => isDigitB a
  | [a, b] => isDigitB a && isDigitB b
  | [a, b, c] =>
    (a = 50 && b = 53 && (48 ≤ c && c ≤ 53)) ||
    (a = 50 && (48 ≤ b && b ≤ 52) && isDigitB c) ||
    ((a = 48 || a = 49) && isDigitB b && isDigitB c)
  | _ => false

/-- Full-token IPv4 literal grammar of IP_PATTERN, without the boundary
    context: four octet groups separated by literal dots. -/
def grammarToken (t : List Nat) : Bool :=
  match splitOnDot t with
  | [p1, p2, p3, p4] => octetB p1 && octetB p2 && octetB p3 && octetB p4
  | _ => false

/-- n octet groups separated by literal dots, as a split count. -/
def dotGroupsB (n : Nat) (t : List Nat) : Bool :=
  (splitOnDot t).length == n && (splitOnDot t).all octetB

/-- Every byte of a token is a digit or the dot. -/
def tokenBytesB (t : List Nat) : Bool := t.all (fun b => isDigitB b || b == dotB)

/-- The last byte, when there is one, is not a word byte: the chunk may be
    followed by anything at a split boundary without creating or destroying a
    word boundary for text inside the chunk. -/
def freeEndB (t : List Nat) : Bool :=
  match t.getLast? with
  | some c => !isWordB c
  | none => true

/-- Strict propositional form of freeEndB used in the scan lemmas. -/
def FreeEnd (t : List Nat) : Prop := ∀ c, t.getLast? = some c → isWordB c = false

/-- Chunk list whose internal boundaries are flanked by non-word bytes on both
    sides, with all chunks non-empty. -/
def flankedB : List (List Nat) → Bool
  | [] => true
  | [c] => !c.isEmpty
  | c :: c2 :: rest => !c.isEmpty && freeEndB c && !headWord c2 && flankedB (c2 :: rest)

/-- The final sorted (private, public) answer computed from a list of chunks,
    exactly as extract_ips_from_file computes it from its read chunks. -/
def pipelineOut (css : List (List Nat)) : List (List Nat) × List (List Nat) :=
  (sortLex (runChunks css).1, sortLex (runChunks css).2)

/-- Cumulative end positions of the chunks inside the concatenated input; all
    but the last one are the internal split boundaries. -/
def cumLens : List (List Nat) → List Nat
  | [] => []
  | c :: rest => c.length :: (cumLens rest).map (fun x => c.length + x)

/-- No substring of the concatenated input that matches the raw IPv4 literal
    grammar lies across an internal chunk boundary of the splitting. -/
def noStraddleB (css : List (List Nat)) : Bool :=
  let s := css.flatten
  (List.range (s.length + 1)).all fun i =>
    (List.range (s.length + 1)).all fun l =>
      !(grammarToken ((s.drop i).take l) && decide (i + l ≤ s.length) &&
        (cumLens css).dropLast.any (fun b => decide (i < b) && decide (b < i + l)))

/-- Strict lexicographic order: at most one of each pair in a sorted
    duplicate-free sequence. -/
def LexLt (x y : List Nat) : Prop := LexLe x y ∧ x ≠ y

/-- Invariant of a partial match of IP_PATTERN: the input splits into the
    token and the rest, the token is n dot-separated octet groups made of
    digit and dot bytes beginning and ending in a digit, and the byte after
    the token is absent or non-word (the closing boundary test). -/
def MatchInv (n : Nat) (t tok r : List Nat) : Prop :=
  t = tok ++ r ∧ dotGroupsB n tok = true ∧ tokenBytesB tok = true ∧
  (∀ c, tok.head? = some c → isDigitB c = true) ∧
  (∀ c, tok.getLast? = some c → isDigitB c = true) ∧
  headWord r = false ∧ tok ≠ []

/-- Word status of the byte immediately to the left of a scan position that
    sits right after the prefix u: the last byte of u, or the ambient context
    p when u is empty. -/
def lastCtxW (p : Bool) (u : List Nat) : Bool :=
  match u.getLast? with
  | some c => isWordB c
  | none => p

/-- Byte string 0.0.0.0 (digits and dots by ASCII code). -/
def sZero : List Nat := [48, 46, 48, 46, 48, 46, 48]

/-- Byte string 224.0.0.1, a multicast address. -/
def sMcast : List Nat := [50, 50, 52, 46, 48, 46, 48, 46, 49]

/-- Byte string 1.2.3.4. -/
def sOneTwo : List Nat := [49, 46, 50, 46, 51, 46, 52]

/-- Byte string 1.2.3.4.5, a longer dotted-digit sequence. -/
def sOneTwoFive : List Nat := [49, 46, 50, 46, 51, 46, 52, 46, 53]

/-- Byte string a1.2.3.4: a letter immediately followed by an IPv4 literal. -/
def sLetterIP : List Nat := [97, 49, 46, 50, 46, 51, 46, 52]

/-- Byte string a, the single letter. -/
def sLetter : List Nat := [97]

/-- Byte string 10.0.0.1, a private address. -/
def sTen : List Nat := [49, 48, 46, 48, 46, 48, 46, 49]

/-- Byte string 127.0.0.1, the loopback address. -/
def sLoop : List Nat := [49, 50, 55, 46, 48, 46, 48, 46, 49]

/-- Byte string 169.254.1.1, a link-local address. -/
def sLink : List Nat := [49, 54, 57, 46, 50, 53, 52, 46, 49, 46, 49]

/-- Byte string 8.8.8.8, a public address. -/
def sPub : List Nat := [56, 46, 56, 46, 56, 46, 56]

/-- Byte string hello, a non-numeric classifier input. -/
def sHello : List Nat := [104, 101, 108, 108, 111]

/-- Byte string of a space, then 1.2.3.4, then a space. -/
def sSpIpSp : List Nat := [32, 49, 46, 50, 46, 51, 46, 52, 32]

/-- Byte string of a space, then 5.6.7.8. -/
def sSpIp2 : List Nat := [32, 53, 46, 54, 46, 55, 46, 56]

/-- Byte string x, then a space, then 1.2.3.4. -/
def sCtx : List Nat := [120, 32, 49, 46, 50, 46, 51, 46, 52]

/-- Distinct valid-grammar candidates found across all chunks of a run. -/
def run_candidates (content : List Nat) (chunk_size : Nat) : List (List Nat) :=
  ((chunksOf chunk_size content).map (fun c => (findAll c).map decodeIgnore)).flatten.dedup

/-- C7: any exception raised inside the try block of extract_ips_from_file
    (file I/O or worker execution), no matter how many chunk results were
    already collected, makes the call log and return two empty sequences:
    no partial results survive and no retry happens within the call. -/
theorem c7_exception_returns_empty (file : Option (List Nat)) (k chunk_size : Nat) :
    extract_ips_from_file file (some k) chunk_size = ([], []) := by
  cases file with
  | none => rfl
  | some content => by_cases h : content.length = 0 <;> simp [extract_ips_from_file, h]

/-- C8: a path that is not an existing regular file, and an existing file of
    size zero, both yield two empty sequences from the precondition check,
    before any work begins and without raising. -/
theorem c8_missing_or_empty_file (failAfter : Option Nat) (chunk_size : Nat) :
    extract_ips_from_file none failAfter chunk_size = ([], []) ∧
    extract_ips_from_file (some []) failAfter chunk_size = ([], []) :=
  ⟨rfl, rfl⟩

/-- C9: validate_ip is total and deterministic on every string: a parse
    failure is caught and yields false rather than an escaping error, the
    result is always one of the two booleans, and equal inputs give equal
    results. -/
theorem c9_classifier_total (s : List Nat) :
    (parseIPv4 s = none → validate_ip s = false) ∧
    (validate_ip s = true ∨ validate_ip s = false) ∧
    validate_ip s = validate_ip s := by
  refine ⟨fun h => by simp [validate_ip, h], ?_, rfl⟩
  cases validate_ip s
  · exact Or.inr rfl
  · exact Or.inl rfl

/-- C9 witness: the non-numeric string hello is classified false, not an
    error. -/
theorem c9_classifier_total_witness : validate_ip sHello = false :=
  (c9_classifier_total sHello).1 (by decide)

/-- C1 counterexample: the unspecified address 0.0.0.0 and the multicast
    address 224.0.0.1 are NOT excluded: each appears in the public set of
    _process_chunk and in the public list of extract_ips_from_file, refuting
    the claim that they appear in neither output. -/
theorem c1_counterexample :
    process_chunk sZero = ([], [sZero]) ∧
    process_chunk sMcast = ([], [sMcast]) ∧
    extract_ips_from_file (some sZero) none 1048576 = ([], [sZero]) ∧
    extract_ips_from_file (some sMcast) none 1048576 = ([], [sMcast]) :=
  ⟨by decide, by decide, by decide, by decide⟩

/-- C1 amended: a candidate that parses as the unspecified address, a reserved
    address or a multicast address fails validate_ip and is therefore routed
    to the PUBLIC set of _process_chunk, never to the private set; there is no
    excluded class. -/
theorem c1_amended (s : List Nat) (a : Nat) (hp : parseIPv4 s = some a)
    (hs : (is_unspecified a || is_reserved a || is_multicast a) = true) :
    validate_ip s = false ∧
    ∀ chunk : List Nat,
      s ∉ (process_chunk chunk).1 ∧
      (s ∈ (findAll chunk).map decodeIgnore → s ∈ (process_chunk chunk).2) := by
  have hv : validate_ip s = false := by simp [validate_ip, hp, hs]
  refine ⟨hv, fun chunk => ⟨?_, ?_⟩⟩
  · intro hmem
    have := (List.mem_filter.1 hmem).2
    rw [hv] at this
    exact Bool.false_ne_true this
  · intro hc
    exact List.mem_filter.2 ⟨List.mem_dedup.2 hc, by rw [hv]; rfl⟩

/-- C1 amended witness: 0.0.0.0 at the concrete chunk 0.0.0.0. -/
theorem c1_amended_witness :
    validate_ip sZero = false ∧ sZero ∉ (process_chunk sZero).1 ∧
    sZero ∈ (process_chunk sZero).2 := by
  obtain ⟨h1, h2⟩ := c1_amended sZero 0 (by decide) (by decide)
  exact ⟨h1, (h2 sZero).1, (h2 sZero).2 (by decide)⟩

/-- C3 counterexample: scanning the longer dotted-digit sequence 1.2.3.4.5
    extracts the embedded four-octet literal 1.2.3.4 as a candidate (and it
    reaches the public output of _process_chunk), refuting the claim that
    such embedded literals are not extracted. -/
theorem c3_counterexample :
    findAll sOneTwoFive = [sOneTwo] ∧ (process_chunk sOneTwoFive).2 = [sOneTwo] :=
  ⟨by decide, by decide⟩

/-- C2: for a candidate that parses as a valid address and is not unspecified,
    reserved or multicast, validate_ip is true exactly when the address lies
    in 10.0.0.0/8, 172.16.0.0/12 or 192.168.0.0/16; moreover loopback
    (127.0.0.0/8) and link-local (169.254.0.0/16) addresses always fail
    validate_ip and hence are classified public (placed in the public set of
    _process_chunk, never the private set, never dropped). -/
theorem c2_private_iff_three_ranges (s : List Nat) (a : Nat)
    (hp : parseIPv4 s = some a) :
    ((is_unspecified a || is_reserved a || is_multicast a) = false →
      (validate_ip s = true ↔ PRIVATE_NETWORKS.any (inNetwork a) = true)) ∧
    ((inNetwork a (2130706432, 8) = true ∨ inNetwork a (2851995648, 16) = true) →
      validate_ip s = false ∧
      ∀ chunk : List Nat,
        (s ∈ (findAll chunk).map decodeIgnore → s ∈ (process_chunk chunk).2) ∧
        s ∉ (process_chunk chunk).1) := by
  constructor
  · intro hs
    simp [validate_ip, hp, hs]
  · intro hin
    have hpriv : PRIVATE_NETWORKS.any (inNetwork a) = false := by
      have hd : a / 16777216 = 127 ∨ a / 65536 = 43518 := by
        rcases hin with h | h
        · left
          simpa [inNetwork] using h
        · right
          simpa [inNetwork] using h
      simp only [PRIVATE_NETWORKS, inNetwork, List.any_cons, List.any_nil,
        Bool.or_eq_false_iff]
      norm_num
      omega
    have hv : validate_ip s = false := by
      simp [validate_ip, hp, hpriv]
    refine ⟨hv, fun chunk => ⟨?_, ?_⟩⟩
    · intro hc
      exact List.mem_filter.2 ⟨List.mem_dedup.2 hc, by rw [hv]; rfl⟩
    · intro hmem
      have := (List.mem_filter.1 hmem).2
      rw [hv] at this
      exact Bool.false_ne_true this

/-- Helper: an octet segment is never empty. -/
theorem octetB_ne_nil {seg : List Nat} (h : octetB seg = true) : seg ≠ [] := by
  intro he
  subst he
  simp [octetB] at h

/-- Helper: every segment produced by the first octet alternative is a valid
    octet group, a leading part of the input, and all digits. -/
theorem alt1_spec {t seg : List Nat} (h : seg ∈ alt1 t) :
    octetB seg = true ∧ t = seg ++ t.drop seg.length ∧ ∀ b ∈ seg, isDigitB b = true := by
  match t with
  | [] => simp [alt1] at h
  | [a] => simp [alt1] at h
  | [a, b] => simp [alt1] at h
  | a :: b :: c :: rest =>
    simp only [alt1] at h
    split at h
    next hc =>
      simp only [List.mem_singleton] at h
      subst h
      simp only [Bool.and_eq_true, decide_eq_true_eq] at hc
      obtain ⟨⟨ha, hb⟩, h48, h53⟩ := hc
      refine ⟨by simp [octetB, isDigitB]; omega, rfl, ?_⟩
      intro x hx
      simp only [List.mem_cons, List.not_mem_nil, or_false] at hx
      rcases hx with rfl | rfl | rfl <;> simp [isDigitB] <;> omega
    next => simp at h

/-- Helper: same for the second octet alternative. -/
theorem alt2_spec {t seg : List Nat} (h : seg ∈ alt2 t) :
    octetB seg = true ∧ t = seg ++ t.drop seg.length ∧ ∀ b ∈ seg, isDigitB b = true := by
  match t with
  | [] => simp [alt2] at h
  | [a] => simp [alt2] at h
  | [a, b] => simp [alt2] at h
  | a :: b :: c :: rest =>
    simp only [alt2] at h
    split at h
    next hc =>
      simp only [List.mem_singleton] at h
      subst h
      simp only [Bool.and_eq_true, decide_eq_true_eq, isDigitB] at hc
      obtain ⟨⟨ha, h48, h52⟩, hcd⟩ := hc
      refine ⟨by simp [octetB, isDigitB]; omega, rfl, ?_⟩
      intro x hx
      simp only [List.mem_cons, List.not_mem_nil, or_false] at hx
      rcases hx with rfl | rfl | rfl <;> simp [isDigitB] <;> omega
    next => simp at h

/-- Helper: same for the third octet alternative with [01] taken. -/
theorem alt3with_spec {t seg : List Nat} (h : seg ∈ alt3with t) :
    octetB seg = true ∧ t = seg ++ t.drop seg.length ∧ ∀ b ∈ seg, isDigitB b = true := by
  match t with
  | [] => simp [alt3with] at h
  | [a] => simp [alt3with] at h
  | [a, b] =>
    simp only [alt3with] at h
    split at h
    next hc =>
      simp only [List.mem_singleton] at h
      subst h
      simp only [Bool.and_eq_true, Bool.or_eq_true, decide_eq_true_eq, isDigitB] at hc
      obtain ⟨ha, hb⟩ := hc
      refine ⟨by simp [octetB, isDigitB]; omega, rfl, ?_⟩
      intro x hx
      simp only [List.mem_cons, List.not_mem_nil, or_false] at hx
      rcases hx with rfl | rfl <;> simp [isDigitB] <;> omega
    next => simp at h
  | a :: b :: c :: rest =>
    simp only [alt3with] at h
    split at h
    next hc =>
      simp only [Bool.and_eq_true, Bool.or_eq_true, decide_eq_true_eq, isDigitB] at hc
      obtain ⟨ha, hb⟩ := hc
      split at h
      next hcd =>
        simp only [List.mem_cons, List.mem_singleton, List.not_mem_nil, or_false] at h
        simp only [isDigitB, Bool.and_eq_true, decide_eq_true_eq] at hcd
        rcases h with rfl | rfl
        · refine ⟨by simp [octetB, isDigitB]; omega, rfl, ?_⟩
          intro x hx
          simp only [List.mem_cons, List.not_mem_nil, or_false] at hx
          rcases hx with rfl | rfl | rfl <;> simp [isDigitB] <;> omega
        · refine ⟨by simp [octetB, isDigitB]; omega, rfl, ?_⟩
          intro x hx
          simp only [List.mem_cons, List.not_mem_nil, or_false] at hx
          rcases hx with rfl | rfl <;> simp [isDigitB] <;> omega
      next =>
        simp only [List.mem_singleton] at h
        subst h
        refine ⟨by simp [octetB, isDigitB]; omega, rfl, ?_⟩
        intro x hx
        simp only [List.mem_cons, List.not_mem_nil, or_false] at hx
        rcases hx with rfl | rfl <;> simp [isDigitB] <;> omega
    next => simp at h

/-- Helper: same for the third octet alternative with [01] skipped. -/
theorem alt3without_spec {t seg : List Nat} (h : seg ∈ alt3without t) :
    octetB seg = true ∧ t = seg ++ t.drop seg.length ∧ ∀ b ∈ seg, isDigitB b = true := by
  match t with
  | [] => simp [alt3without] at h
  | [a] =>
    simp only [alt3without] at h
    split at h
    next ha =>
      simp only [List.mem_singleton] at h
      subst h
      simp only [isDigitB, Bool.and_eq_true, decide_eq_true_eq] at ha
      refine ⟨by simp [octetB, isDigitB]; omega, rfl, ?_⟩
      intro x hx
      simp only [List.mem_singleton] at hx
      subst hx
      simp [isDigitB]
      omega
    next => simp at h
  | a :: b :: rest =>
    simp only [alt3without] at h
    split at h
    next ha =>
      simp only [isDigitB, Bool.and_eq_true, decide_eq_true_eq] at ha
      split at h
      next hb =>
        simp only [List.mem_cons, List.mem_singleton, List.not_mem_nil, or_false] at h
        simp only [isDigitB, Bool.and_eq_true, decide_eq_true_eq] at hb
        rcases h with rfl | rfl
        · refine ⟨by simp [octetB, isDigitB]; omega, rfl, ?_⟩
          intro x hx
          simp only [List.mem_cons, List.not_mem_nil, or_false] at hx
          rcases hx with rfl | rfl <;> simp [isDigitB] <;> omega
        · refine ⟨by simp [octetB, isDigitB]; omega, rfl, ?_⟩
          intro x hx
          simp only [List.mem_singleton] at hx
          subst hx
          simp [isDigitB]
          omega
      next hb =>
        simp only [List.mem_singleton] at h
        subst h
        refine ⟨by simp [octetB, isDigitB]; omega, rfl, ?_⟩
        intro x hx
        simp only [List.mem_singleton] at hx
        subst hx
        simp [isDigitB]
        omega
    next => simp at h

/-- Helper: every segment produced by the octet group of IP_PATTERN is a valid
    octet group, a leading part of the input, and all digits. -/
theorem octetSegs_spec {t seg : List Nat} (h : seg ∈ octetSegs t) :
    octetB seg = true ∧ t = seg ++ t.drop seg.length ∧ ∀ b ∈ seg, isDigitB b = true := by
  simp only [octetSegs, List.mem_append] at h
  rcases h with ((h | h) | h) | h
  · exact alt1_spec h
  · exact alt2_spec h
  · exact alt3with_spec h
  · exact alt3without_spec h

/-- Helper: splitting a digit run followed by a dot peels the run off. -/
theorem splitOnDot_append_digits {p : List Nat} (hp : ∀ b ∈ p, isDigitB b = true)
    (rest : List Nat) : splitOnDot (p ++ dotB :: rest) = p :: splitOnDot rest := by
  induction p with
  | nil => simp [splitOnDot]
  | cons a as ih =>
    have ha : isDigitB a = true := hp a (List.mem_cons_self a as)
    have hne : ¬(a = dotB) := by
      simp only [isDigitB, Bool.and_eq_true, decide_eq_true_eq] at ha
      simp [dotB]
      omega
    simp only [List.cons_append, splitOnDot, List.append_eq, if_neg hne,
      ih (fun b hb => hp b (List.mem_cons_of_mem a hb))]

/-- Helper: a pure digit run does not split. -/
theorem splitOnDot_digits {p : List Nat} (hp : ∀ b ∈ p, isDigitB b = true) :
    splitOnDot p = [p] := by
  induction p with
  | nil => rfl
  | cons a as ih =>
    have ha : isDigitB a = true := hp a (List.mem_cons_self a as)
    have hne : ¬(a = dotB) := by
      simp only [isDigitB, Bool.and_eq_true, decide_eq_true_eq] at ha
      simp [dotB]
      omega
    simp only [splitOnDot, if_neg hne, ih (fun b hb => hp b (List.mem_cons_of_mem a hb))]

/-- Helper: a non-empty list has a last element. -/
theorem getLast?_some_of_ne_nil {l : List Nat} (h : l ≠ []) : ∃ e, l.getLast? = some e :=
  ⟨l.getLast h, List.getLast?_eq_getLast l h⟩

/-- Helper: left-context computation on the empty accumulated run. -/
theorem lastCtxW_nil (p : Bool) : lastCtxW p [] = p := rfl

/-- Helper: left-context computation when the accumulated run has a last
    byte. -/
theorem lastCtxW_last {p : Bool} {u : List Nat} {e : Nat} (h : u.getLast? = some e) :
    lastCtxW p u = isWordB e := by
  simp [lastCtxW, h]

/-- Helper: unfolding of the match invariant. -/
theorem MatchInv.out {n : Nat} {t tok r : List Nat} (h : MatchInv n t tok r) :
    t = tok ++ r ∧ dotGroupsB n tok = true ∧ tokenBytesB tok = true ∧
    (∀ c, tok.head? = some c → isDigitB c = true) ∧
    (∀ c, tok.getLast? = some c → isDigitB c = true) ∧
    headWord r = false ∧ tok ≠ [] := h

/-- Helper: four dot-separated octet groups satisfy the full token grammar. -/
theorem dotGroups_four_grammar {tok : List Nat} (h : dotGroupsB 4 tok = true) :
    grammarToken tok = true := by
  simp only [dotGroupsB, Bool.and_eq_true, beq_iff_eq, List.all_eq_true] at h
  obtain ⟨hlen, hall⟩ := h
  match hsp : splitOnDot tok with
  | [] => rw [hsp] at hlen; simp at hlen
  | [p1] => rw [hsp] at hlen; simp at hlen
  | [p1, p2] => rw [hsp] at hlen; simp at hlen
  | [p1, p2, p3] => rw [hsp] at hlen; simp at hlen
  | [p1, p2, p3, p4] =>
    rw [hsp] at hall
    have h1 := hall p1 (by simp)
    have h2 := hall p2 (by simp)
    have h3 := hall p3 (by simp)
    have h4 := hall p4 (by simp)
    simp [grammarToken, hsp, h1, h2, h3, h4]
  | p1 :: p2 :: p3 :: p4 :: p5 :: ps =>
    rw [hsp] at hlen
    simp at hlen

/-- Helper: invariant established by the final octet group matcher. -/
theorem matchLastOct_spec {t tok r : List Nat} (h : matchLastOct t = some (tok, r)) :
    MatchInv 1 t tok r := by
  simp only [matchLastOct] at h
  obtain ⟨seg, hseg, hf⟩ := List.exists_of_findSome?_eq_some h
  obtain ⟨hoct, hpre, hdig⟩ := octetSegs_spec hseg
  split at hf
  next => exact absurd hf (by simp)
  next hw =>
    injection hf with hf2
    injection hf2 with h1 h2
    subst h1
    subst h2
    refine ⟨hpre, ?_, ?_, ?_, ?_, ?_, octetB_ne_nil hoct⟩
    · simp [dotGroupsB, splitOnDot_digits hdig, hoct]
    · simp only [tokenBytesB, List.all_eq_true]
      intro b hb
      simp [hdig b hb]
    · intro c hc
      cases hs : seg with
      | nil => rw [hs] at hc; simp at hc
      | cons x xs =>
        rw [hs] at hc
        simp only [List.head?_cons, Option.some.injEq] at hc
        exact hc ▸ hdig x (by rw [hs]; exact List.mem_cons_self x xs)
    · intro c hc
      exact hdig c (List.mem_of_mem_getLast? hc)
    · simpa using hw

/-- Helper: invariant propagated by an octet-dot group matcher given the
    invariant for its continuation. -/
theorem matchOctDot_spec {n : Nat} {k : List Nat → Option (List Nat × List Nat)}
    {t tok r : List Nat}
    (hk : ∀ t2 tok2 r2, k t2 = some (tok2, r2) → MatchInv n t2 tok2 r2)
    (h : matchOctDot t k = some (tok, r)) : MatchInv (n + 1) t tok r := by
  simp only [matchOctDot] at h
  obtain ⟨seg, hseg, hf⟩ := List.exists_of_findSome?_eq_some h
  obtain ⟨hoct, hpre, hdig⟩ := octetSegs_spec hseg
  cases hd : t.drop seg.length with
  | nil => rw [hd] at hf; exact absurd hf (by simp)
  | cons b t2 =>
    rw [hd] at hf
    simp only at hf
    split at hf
    next hb =>
      rw [Option.map_eq_some'] at hf
      obtain ⟨⟨tok2, r2⟩, hk2, heq⟩ := hf
      obtain ⟨ht2, hdg, htb, hh, hl, hwr, hne⟩ := MatchInv.out (hk t2 tok2 r2 hk2)
      simp only at heq
      injection heq with he1 he2
      rw [← he1, ← he2]
      have hsegne : seg ≠ [] := octetB_ne_nil hoct
      refine ⟨?_, ?_, ?_, ?_, ?_, hwr, by simp⟩
      · calc t = seg ++ t.drop seg.length := hpre
          _ = seg ++ (b :: t2) := by rw [hd]
          _ = seg ++ dotB :: (tok2 ++ r2) := by rw [hb, ht2]
          _ = (seg ++ dotB :: tok2) ++ r2 := by simp
      · simp only [dotGroupsB, Bool.and_eq_true, beq_iff_eq, List.all_eq_true] at hdg ⊢
        rw [splitOnDot_append_digits hdig]
        refine ⟨by simp [hdg.1], ?_⟩
        intro x hx
        rcases List.mem_cons.1 hx with rfl | hx'
        · exact hoct
        · exact hdg.2 x hx'
      · simp only [tokenBytesB, List.all_eq_true] at htb ⊢
        intro x hx
        rcases List.mem_append.1 hx with hx' | hx'
        · simp [hdig x hx']
        · rcases List.mem_cons.1 hx' with rfl | hx''
          · simp
          · exact htb x hx''
      · intro c hc
        cases hs : seg with
        | nil => exact absurd hs hsegne
        | cons s0 ss =>
          rw [hs] at hc
          simp only [List.cons_append, List.head?_cons, Option.some.injEq] at hc
          exact hc ▸ hdig s0 (by rw [hs]; exact List.mem_cons_self s0 ss)
      · intro c hc
        have hdt : (dotB :: tok2).getLast? = tok2.getLast? := by
          cases tok2 with
          | nil => exact absurd rfl hne
          | cons x xs => exact List.getLast?_cons_cons
        obtain ⟨d, hd2⟩ : ∃ d, tok2.getLast? = some d := getLast?_some_of_ne_nil hne
        rw [List.getLast?_append, hdt, hd2] at hc
        simp only [Option.or, Option.some.injEq] at hc
        exact hc ▸ hl d hd2
    next => exact absurd hf (by simp)

/-- Helper: a successful attempt of IP_PATTERN at a position yields a
    four-group grammar token, and the left context byte is non-word. -/
theorem matchIPHere_spec {p : Bool} {t tok r : List Nat}
    (h : matchIPHere p t = some (tok, r)) :
    MatchInv 4 t tok r ∧ grammarToken tok = true ∧ p = false := by
  simp only [matchIPHere] at h
  split at h
  next => exact absurd h (by simp)
  next hne =>
    have hinv : MatchInv 4 t tok r :=
      matchOctDot_spec (fun t2 tok2 r2 h2 =>
        matchOctDot_spec (fun t3 tok3 r3 h3 =>
          matchOctDot_spec (fun t4 tok4 r4 h4 => matchLastOct_spec h4) h3) h2) h
    obtain ⟨hteq, hdg, htb, hh, hl, hwr, hne2⟩ := MatchInv.out hinv
    refine ⟨hinv, dotGroups_four_grammar hdg, ?_⟩
    have hht : headWord t = true := by
      cases ht : tok with
      | nil => exact absurd ht hne2
      | cons x xs =>
        have hx : isDigitB x = true := hh x (by rw [ht]; rfl)
        rw [hteq, ht]
        simp [headWord, isWordB, hx]
    cases hp : p
    · rfl
    · rw [hht, hp] at hne
      simp at hne

/-- Helper: every token of the scanning loop satisfies the token grammar and
    occurs in the input with a non-word byte (or the scan context, or the
    input end) on each side. -/
theorem findAllAux_sound :
    ∀ (fuel : Nat) (p : Bool) (t tok : List Nat), tok ∈ findAllAux fuel p t →
      grammarToken tok = true ∧ tokenBytesB tok = true ∧
      ∃ u v, t = u ++ (tok ++ v) ∧ lastCtxW p u = false ∧ headWord v = false := by
  intro fuel
  induction fuel with
  | zero => intro p t tok h; simp [findAllAux] at h
  | succ fuel ih =>
    intro p t tok h
    cases t with
    | nil => simp [findAllAux] at h
    | cons b rest =>
      simp only [findAllAux] at h
      cases hm : matchIPHere p (b :: rest) with
      | some pr =>
        obtain ⟨tok0, r⟩ := pr
        rw [hm] at h
        simp only [List.mem_cons] at h
        obtain ⟨hinv, hg, hp⟩ := matchIPHere_spec hm
        obtain ⟨hteq, hdg, htb, hh, hl, hwr, hne2⟩ := MatchInv.out hinv
        rcases h with rfl | h'
        · exact ⟨hg, htb, [], r, by simpa using hteq, by simp [lastCtxW, hp], hwr⟩
        · obtain ⟨hg2, htb2, u', v', hrEq, hctx, hwv⟩ :=
            ih (match tok0.getLast? with | some c => isWordB c | none => p) r tok h'
          refine ⟨hg2, htb2, tok0 ++ u', v', ?_, ?_, hwv⟩
          · rw [hteq, hrEq]
            simp
          · obtain ⟨d, hd2⟩ : ∃ d, tok0.getLast? = some d := getLast?_some_of_ne_nil hne2
            have hp2 : (match tok0.getLast? with | some c => isWordB c | none => p) =
                isWordB d := by rw [hd2]
            cases u' with
            | nil =>
              rw [lastCtxW_nil, hp2] at hctx
              rw [List.append_nil, lastCtxW_last hd2]
              exact hctx
            | cons x xs =>
              obtain ⟨e, he⟩ : ∃ e, (x :: xs).getLast? = some e :=
                getLast?_some_of_ne_nil (by simp)
              have h1 : (tok0 ++ x :: xs).getLast? = some e := by
                rw [List.getLast?_append, he]
                rfl
              rw [lastCtxW_last he] at hctx
              rw [lastCtxW_last h1]
              exact hctx
      | none =>
        rw [hm] at h
        obtain ⟨hg2, htb2, u', v', hrEq, hctx, hwv⟩ := ih (isWordB b) rest tok h
        refine ⟨hg2, htb2, b :: u', v', by rw [hrEq]; rfl, ?_, hwv⟩
        cases u' with
        | nil =>
          rw [lastCtxW_nil] at hctx
          have hb1 : ([b] : List Nat).getLast? = some b := rfl
          rw [lastCtxW_last hb1]
          exact hctx
        | cons x xs =>
          obtain ⟨e, he⟩ : ∃ e, (x :: xs).getLast? = some e :=
            getLast?_some_of_ne_nil (by simp)
          have h1 : (b :: x :: xs).getLast? = some e := by
            rw [List.getLast?_cons_cons]
            exact he
          rw [lastCtxW_last he] at hctx
          rw [lastCtxW_last h1]
          exact hctx

/-- C2 witness: concrete checks at 10.0.0.1 (private), 8.8.8.8 (public) and
    127.0.0.1 (loopback, classified public). -/
theorem c2_private_iff_three_ranges_witness :
    validate_ip sTen = true ∧ validate_ip sPub = false ∧ validate_ip sLoop = false := by
  refine ⟨?_, ?_, ?_⟩
  · exact ((c2_private_iff_three_ranges sTen 167772161 (by decide)).1
      (by decide)).2 (by decide)
  · have h := (c2_private_iff_three_ranges sPub 134744072 (by decide)).1 (by decide)
    cases hv : validate_ip sPub
    · rfl
    · exact absurd (h.1 hv) (by decide)
  · exact ((c2_private_iff_three_ranges sLoop 2130706433 (by decide)).2
      (Or.inl (by decide))).1


/-- Helper: UTF-8 decoding with errors ignored is the identity on tokens made
    of digit and dot bytes. -/
theorem decodeIgnore_of_tokenBytes {t : List Nat} (h : tokenBytesB t = true) :
    decodeIgnore t = t := by
  rw [decodeIgnore, List.filter_eq_self]
  intro b hb
  have hbt := (List.all_eq_true.1 h) b hb
  simp only [Bool.or_eq_true, beq_iff_eq] at hbt
  rcases hbt with hd | rfl
  · simp only [isDigitB, Bool.and_eq_true, decide_eq_true_eq] at hd
    simp only [decide_eq_true_eq]
    omega
  · simp [dotB]

/-- Helper: membership in the two sets of _process_chunk. -/
theorem process_chunk_mem {chunk x : List Nat} :
    (x ∈ (process_chunk chunk).1 ↔
      x ∈ (findAll chunk).map decodeIgnore ∧ validate_ip x = true) ∧
    (x ∈ (process_chunk chunk).2 ↔
      x ∈ (findAll chunk).map decodeIgnore ∧ validate_ip x = false) := by
  constructor
  · simp [process_chunk, List.mem_filter, List.mem_dedup]
  · simp [process_chunk, List.mem_filter, List.mem_dedup]

/-- Helper: every candidate of a chunk satisfies the grammar and consists of
    digit and dot bytes. -/
theorem candidate_grammar {chunk x : List Nat}
    (h : x ∈ (findAll chunk).map decodeIgnore) :
    grammarToken x = true ∧ tokenBytesB x = true := by
  obtain ⟨tok, htok, rfl⟩ := List.mem_map.1 h
  obtain ⟨hg, htb, _⟩ := findAllAux_sound _ _ _ _ htok
  rw [decodeIgnore_of_tokenBytes htb]
  exact ⟨hg, htb⟩

/-- Helper: membership in the two accumulators of the chunk-result merge. -/
theorem runChunks_mem {css : List (List Nat)} {x : List Nat} :
    (x ∈ (runChunks css).1 ↔ ∃ c ∈ css, x ∈ (process_chunk c).1) ∧
    (x ∈ (runChunks css).2 ↔ ∃ c ∈ css, x ∈ (process_chunk c).2) := by
  constructor
  · simp [runChunks, List.mem_flatten]
  · simp [runChunks, List.mem_flatten]

/-- Helper: membership in the two lists of extract_ips_from_file on a
    successful run. -/
theorem extract_mem {content : List Nat} {chunk_size : Nat} {x : List Nat}
    (hc : content.length ≠ 0) :
    (x ∈ (extract_ips_from_file (some content) none chunk_size).1 ↔
      ∃ c ∈ chunksOf chunk_size content, x ∈ (process_chunk c).1) ∧
    (x ∈ (extract_ips_from_file (some content) none chunk_size).2 ↔
      ∃ c ∈ chunksOf chunk_size content, x ∈ (process_chunk c).2) := by
  constructor
  · simp only [extract_ips_from_file, if_neg hc, sortLex, List.mem_insertionSort]
    exact runChunks_mem.1
  · simp only [extract_ips_from_file, if_neg hc, sortLex, List.mem_insertionSort]
    exact runChunks_mem.2

/-- C10: every string in either set returned by _process_chunk, and hence in
    either list returned by extract_ips_from_file, matches the scanner's IPv4
    literal grammar: four groups of one to three decimal digits separated by
    literal dots, each group syntactically within 0..255, never empty, and
    with no other characters. -/
theorem c10_outputs_grammar :
    (∀ chunk x : List Nat,
      x ∈ (process_chunk chunk).1 ∨ x ∈ (process_chunk chunk).2 →
      grammarToken x = true ∧ x ≠ []) ∧
    (∀ (file : Option (List Nat)) (failAfter : Option Nat) (chunk_size : Nat)
      (x : List Nat),
      x ∈ (extract_ips_from_file file failAfter chunk_size).1 ∨
      x ∈ (extract_ips_from_file file failAfter chunk_size).2 →
      grammarToken x = true ∧ x ≠ []) := by
  have hch : ∀ chunk x : List Nat,
      x ∈ (process_chunk chunk).1 ∨ x ∈ (process_chunk chunk).2 →
      grammarToken x = true ∧ x ≠ [] := by
    intro chunk x h
    have hx : x ∈ (findAll chunk).map decodeIgnore := by
      rcases h with h | h
      · exact (process_chunk_mem.1.1 h).1
      · exact (process_chunk_mem.2.1 h).1
    obtain ⟨hg, _⟩ := candidate_grammar hx
    refine ⟨hg, ?_⟩
    intro he
    rw [he] at hg
    exact absurd hg (by decide)
  refine ⟨hch, ?_⟩
  intro file failAfter chunk_size x h
  cases file with
  | none => simp [extract_ips_from_file] at h
  | some content =>
    by_cases hc : content.length = 0
    · simp [extract_ips_from_file, hc] at h
    · cases failAfter with
      | some k => simp [extract_ips_from_file, hc] at h
      | none =>
        rcases h with h | h
        · obtain ⟨c, _, hx⟩ := (extract_mem hc).1.1 h
          exact hch c x (Or.inl hx)
        · obtain ⟨c, _, hx⟩ := (extract_mem hc).2.1 h
          exact hch c x (Or.inr hx)

/-- C10 witness: concrete candidate 1.2.3.4 from the public set of a chunk. -/
theorem c10_outputs_grammar_witness : grammarToken sOneTwo = true ∧ sOneTwo ≠ [] :=
  c10_outputs_grammar.1 sOneTwoFive sOneTwo (Or.inr (by decide))

/-- C3 amended: every candidate the scanner extracts matches the IPv4 literal
    grammar and is bounded by regex WORD boundaries: the byte before it (if
    any) and the byte after it (if any) are non-word bytes (not digits,
    letters or underscore). Hence a literal embedded in a longer digit run or
    letter run is never extracted; but the dot is itself a non-word byte, so a
    four-octet literal embedded in a longer dotted-digit sequence IS extracted
    (the counterexample), and extraction is leftmost non-overlapping rather
    than exhaustive over all word-bounded occurrences. -/
theorem c3_amended (chunk tok : List Nat) (h : tok ∈ findAll chunk) :
    grammarToken tok = true ∧
    ∃ u v, chunk = u ++ (tok ++ v) ∧
      (∀ c, u.getLast? = some c → isWordB c = false) ∧
      headWord v = false := by
  obtain ⟨hg, htb, u, v, he, hctx, hv⟩ := findAllAux_sound _ _ _ _ h
  refine ⟨hg, u, v, he, ?_, hv⟩
  intro c hc
  rw [lastCtxW_last hc] at hctx
  exact hctx

/-- C3 amended witness: the candidate 1.2.3.4 inside the chunk made of x, a
    space, and 1.2.3.4. -/
theorem c3_amended_witness :
    grammarToken sOneTwo = true ∧
    ∃ u v, sCtx = u ++ (sOneTwo ++ v) ∧
      (∀ c, u.getLast? = some c → isWordB c = false) ∧
      headWord v = false :=
  c3_amended sCtx sOneTwo (by decide)

/-- Helper: comparing lists with equal heads compares the tails. -/
theorem lexLe_cons_same (a : Nat) (as bs : List Nat) :
    lexLe (a :: as) (a :: bs) = lexLe as bs := by
  simp [lexLe]

/-- Helper: lexLe is total. -/
theorem lexLe_total (x y : List Nat) : lexLe x y = true ∨ lexLe y x = true := by
  induction x generalizing y with
  | nil => exact Or.inl rfl
  | cons a as ih =>
    cases y with
    | nil => exact Or.inr rfl
    | cons b bs =>
      by_cases hab : a < b
      · exact Or.inl (by simp [lexLe, hab])
      · by_cases hba : b < a
        · exact Or.inr (by simp [lexLe, hba])
        · have hab2 : a = b := Nat.le_antisymm (Nat.not_lt.1 hba) (Nat.not_lt.1 hab)
          subst hab2
          rcases ih bs with h | h
          · exact Or.inl (by rw [lexLe_cons_same]; exact h)
          · exact Or.inr (by rw [lexLe_cons_same]; exact h)

/-- Helper: lexLe is transitive. -/
theorem lexLe_trans (x y z : List Nat) (h1 : lexLe x y = true) (h2 : lexLe y z = true) :
    lexLe x z = true := by
  induction x generalizing y z with
  | nil => rfl
  | cons a as ih =>
    cases y with
    | nil => simp [lexLe] at h1
    | cons b bs =>
      cases z with
      | nil => simp [lexLe] at h2
      | cons c cs =>
        by_cases hab : a < b
        · by_cases hbc : b < c
          · have hac : a < c := Nat.lt_trans hab hbc
            simp [lexLe, hac]
          · by_cases hcb : c < b
            · simp [lexLe, hbc, hcb] at h2
            · have hbc2 : b = c := Nat.le_antisymm (Nat.not_lt.1 hcb) (Nat.not_lt.1 hbc)
              subst hbc2
              simp [lexLe, hab]
        · by_cases hba : b < a
          · simp [lexLe, hab, hba] at h1
          · have hab2 : a = b := Nat.le_antisymm (Nat.not_lt.1 hba) (Nat.not_lt.1 hab)
            subst hab2
            rw [lexLe_cons_same] at h1
            by_cases hac : a < c
            · simp [lexLe, hac]
            · by_cases hca : c < a
              · simp [lexLe, hac, hca] at h2
              · have hac2 : a = c := Nat.le_antisymm (Nat.not_lt.1 hca) (Nat.not_lt.1 hac)
                subst hac2
                rw [lexLe_cons_same] at h2 ⊢
                exact ih bs cs h1 h2

/-- Helper: lexLe is antisymmetric. -/
theorem lexLe_antisymm (x y : List Nat) (h1 : lexLe x y = true) (h2 : lexLe y x = true) :
    x = y := by
  induction x generalizing y with
  | nil =>
    cases y with
    | nil => rfl
    | cons b bs => simp [lexLe] at h2
  | cons a as ih =>
    cases y with
    | nil => simp [lexLe] at h1
    | cons b bs =>
      by_cases hab : a < b
      · simp [lexLe, hab, Nat.lt_asymm hab] at h2
      · by_cases hba : b < a
        · simp [lexLe, hab, hba] at h1
        · have hab2 : a = b := Nat.le_antisymm (Nat.not_lt.1 hba) (Nat.not_lt.1 hab)
          subst hab2
          rw [lexLe_cons_same] at h1 h2
          rw [ih bs h1 h2]

/-- Helper: the output of sortLex is sorted for LexLe. -/
theorem sortLex_sorted (l : List (List Nat)) : List.Sorted LexLe (sortLex l) :=
  @List.sorted_insertionSort (List Nat) LexLe _ ⟨lexLe_total⟩
    ⟨fun _ _ _ => lexLe_trans _ _ _⟩ l

/-- Helper: sortLex permutes its input. -/
theorem sortLex_perm (l : List (List Nat)) : (sortLex l).Perm l :=
  List.perm_insertionSort LexLe l

/-- Helper: sortLex is invariant under permutation of its input. -/
theorem sortLex_eq_of_perm {l l2 : List (List Nat)} (h : l.Perm l2) :
    sortLex l = sortLex l2 :=
  @List.eq_of_perm_of_sorted _ LexLe ⟨fun _ _ => lexLe_antisymm _ _⟩ _ _
    ((sortLex_perm l).trans (h.trans (sortLex_perm l2).symm))
    (sortLex_sorted l) (sortLex_sorted l2)

/-- C6: each list returned by extract_ips_from_file is strictly increasing in
    the lexicographic byte-string (Python string) order, hence it is exactly
    the string-lexicographic sort of its set's members, with each distinct
    address appearing at most once. -/
theorem c6_outputs_sorted (file : Option (List Nat)) (failAfter : Option Nat)
    (chunk_size : Nat) :
    List.Pairwise LexLt (extract_ips_from_file file failAfter chunk_size).1 ∧
    List.Pairwise LexLt (extract_ips_from_file file failAfter chunk_size).2 := by
  have key : ∀ l : List (List Nat), l.Nodup → List.Pairwise LexLt (sortLex l) := by
    intro l hnd
    have hs : List.Sorted LexLe (sortLex l) := sortLex_sorted l
    have hn : (sortLex l).Nodup := (sortLex_perm l).nodup_iff.2 hnd
    exact List.Pairwise.and hs hn
  cases file with
  | none => exact ⟨List.Pairwise.nil, List.Pairwise.nil⟩
  | some content =>
    by_cases hc : content.length = 0
    · simp only [extract_ips_from_file, if_pos hc]
      exact ⟨List.Pairwise.nil, List.Pairwise.nil⟩
    · cases failAfter with
      | some k =>
        simp only [extract_ips_from_file, if_neg hc]
        exact ⟨List.Pairwise.nil, List.Pairwise.nil⟩
      | none =>
        simp only [extract_ips_from_file, if_neg hc, runChunks]
        exact ⟨key _ (List.nodup_dedup _), key _ (List.nodup_dedup _)⟩

/-- Helper: counting a boolean partition of a duplicate-free list. -/
theorem partition_length {S P1 P2 : List (List Nat)} (hS : S.Nodup)
    (h1 : P1.Nodup) (h2 : P2.Nodup)
    (hm1 : ∀ x, x ∈ P1 ↔ x ∈ S ∧ validate_ip x = true)
    (hm2 : ∀ x, x ∈ P2 ↔ x ∈ S ∧ validate_ip x = false) :
    P1.length + P2.length = S.length := by
  have e1 : P1.toFinset = S.toFinset.filter (fun x => validate_ip x = true) := by
    ext x
    simp [hm1 x]
  have e2 : P2.toFinset = S.toFinset.filter (fun x => ¬(validate_ip x = true)) := by
    ext x
    simp only [List.mem_toFinset, Finset.mem_filter, hm2 x, Bool.not_eq_true]
  calc P1.length + P2.length
      = P1.toFinset.card + P2.toFinset.card := by
        rw [List.toFinset_card_of_nodup h1, List.toFinset_card_of_nodup h2]
    _ = (S.toFinset.filter (fun x => validate_ip x = true)).card +
        (S.toFinset.filter (fun x => ¬(validate_ip x = true))).card := by rw [e1, e2]
    _ = S.toFinset.card := Finset.filter_card_add_filter_neg_card_eq_card _
    _ = S.length := List.toFinset_card_of_nodup hS

/-- Helper: membership in the distinct candidates of a run. -/
theorem mem_run_candidates {content : List Nat} {chunk_size : Nat} {x : List Nat} :
    x ∈ run_candidates content chunk_size ↔
    ∃ c ∈ chunksOf chunk_size content, x ∈ (findAll c).map decodeIgnore := by
  simp [run_candidates, List.mem_flatten]

/-- C4: on every completed run, the private and public result lists are
    disjoint, together they hold exactly the distinct valid-grammar candidates
    found in the chunks, and private count plus public count plus excluded
    count equals the number of distinct candidates; the excluded set is empty
    because the code routes every candidate to one of the two sets. -/
theorem c4_partition (content : List Nat) (chunk_size : Nat) :
    (∀ x, ¬(x ∈ (extract_ips_from_file (some content) none chunk_size).1 ∧
            x ∈ (extract_ips_from_file (some content) none chunk_size).2)) ∧
    (∀ x, (x ∈ (extract_ips_from_file (some content) none chunk_size).1 ∨
           x ∈ (extract_ips_from_file (some content) none chunk_size).2) ↔
          x ∈ run_candidates content chunk_size) ∧
    (run_candidates content chunk_size).filter
        (fun x => decide (x ∉ (extract_ips_from_file (some content) none chunk_size).1) &&
          decide (x ∉ (extract_ips_from_file (some content) none chunk_size).2)) = [] ∧
    (extract_ips_from_file (some content) none chunk_size).1.length +
      (extract_ips_from_file (some content) none chunk_size).2.length +
      ((run_candidates content chunk_size).filter
        (fun x => decide (x ∉ (extract_ips_from_file (some content) none chunk_size).1) &&
          decide (x ∉ (extract_ips_from_file (some content) none chunk_size).2))).length =
      (run_candidates content chunk_size).length := by
  by_cases hc : content.length = 0
  · have hnil : content = [] := List.length_eq_zero.1 hc
    subst hnil
    have hrc : run_candidates [] chunk_size = [] := by
      simp [run_candidates, chunksOf, chunksOfAux]
    refine ⟨?_, ?_, ?_, ?_⟩ <;> simp [extract_ips_from_file, hrc]
  · have hm1 : ∀ x, x ∈ (extract_ips_from_file (some content) none chunk_size).1 ↔
        x ∈ run_candidates content chunk_size ∧ validate_ip x = true := by
      intro x
      rw [(extract_mem hc).1]
      constructor
      · rintro ⟨c, hcm, hx⟩
        obtain ⟨hcand, hv⟩ := process_chunk_mem.1.1 hx
        exact ⟨mem_run_candidates.2 ⟨c, hcm, hcand⟩, hv⟩
      · rintro ⟨hrc, hv⟩
        obtain ⟨c, hcm, hcand⟩ := mem_run_candidates.1 hrc
        exact ⟨c, hcm, process_chunk_mem.1.2 ⟨hcand, hv⟩⟩
    have hm2 : ∀ x, x ∈ (extract_ips_from_file (some content) none chunk_size).2 ↔
        x ∈ run_candidates content chunk_size ∧ validate_ip x = false := by
      intro x
      rw [(extract_mem hc).2]
      constructor
      · rintro ⟨c, hcm, hx⟩
        obtain ⟨hcand, hv⟩ := process_chunk_mem.2.1 hx
        exact ⟨mem_run_candidates.2 ⟨c, hcm, hcand⟩, hv⟩
      · rintro ⟨hrc, hv⟩
        obtain ⟨c, hcm, hcand⟩ := mem_run_candidates.1 hrc
        exact ⟨c, hcm, process_chunk_mem.2.2 ⟨hcand, hv⟩⟩
    have hdisj : ∀ x, ¬(x ∈ (extract_ips_from_file (some content) none chunk_size).1 ∧
        x ∈ (extract_ips_from_file (some content) none chunk_size).2) := by
      rintro x ⟨hx1, hx2⟩
      have hv1 := ((hm1 x).1 hx1).2
      have hv2 := ((hm2 x).1 hx2).2
      rw [hv1] at hv2
      simp at hv2
    have hunion : ∀ x,
        (x ∈ (extract_ips_from_file (some content) none chunk_size).1 ∨
         x ∈ (extract_ips_from_file (some content) none chunk_size).2) ↔
        x ∈ run_candidates content chunk_size := by
      intro x
      constructor
      · rintro (h | h)
        · exact ((hm1 x).1 h).1
        · exact ((hm2 x).1 h).1
      · intro hx
        cases hv : validate_ip x with
        | true => exact Or.inl ((hm1 x).2 ⟨hx, hv⟩)
        | false => exact Or.inr ((hm2 x).2 ⟨hx, hv⟩)
    have hfilter : (run_candidates content chunk_size).filter
        (fun x => decide (x ∉ (extract_ips_from_file (some content) none chunk_size).1) &&
          decide (x ∉ (extract_ips_from_file (some content) none chunk_size).2)) = [] := by
      rw [List.filter_eq_nil_iff]
      intro a ha
      rcases (hunion a).2 ha with h | h
      · simp [h]
      · simp [h]
    have hnd1 : (extract_ips_from_file (some content) none chunk_size).1.Nodup := by
      have he : (extract_ips_from_file (some content) none chunk_size).1 =
          sortLex (runChunks (chunksOf chunk_size content)).1 := by
        simp only [extract_ips_from_file, if_neg hc]
      rw [he, runChunks]
      exact (sortLex_perm _).nodup_iff.2 (List.nodup_dedup _)
    have hnd2 : (extract_ips_from_file (some content) none chunk_size).2.Nodup := by
      have he : (extract_ips_from_file (some content) none chunk_size).2 =
          sortLex (runChunks (chunksOf chunk_size content)).2 := by
        simp only [extract_ips_from_file, if_neg hc]
      rw [he, runChunks]
      exact (sortLex_perm _).nodup_iff.2 (List.nodup_dedup _)
    have hndS : (run_candidates content chunk_size).Nodup := List.nodup_dedup _
    have hlen := partition_length hndS hnd1 hnd2 hm1 hm2
    refine ⟨hdisj, hunion, hfilter, ?_⟩
    rw [hfilter]
    simpa using hlen

/-- Helper: the scanning loop is fuel-stable once fuel exceeds the input
    length. -/
theorem findAllAux_fuel :
    ∀ (fuel : Nat) (p : Bool) (t : List Nat), t.length < fuel →
      findAllAux fuel p t = findAllAux (t.length + 1) p t := by
  intro fuel
  induction fuel using Nat.strong_induction_on with
  | _ fuel ih =>
    intro p t hlt
    cases fuel with
    | zero => exact absurd hlt (Nat.not_lt_zero _)
    | succ fuel =>
      cases t with
      | nil => rfl
      | cons b rest =>
        simp only [findAllAux]
        cases hm : matchIPHere p (b :: rest) with
        | some pr =>
          obtain ⟨tok, r⟩ := pr
          obtain ⟨hinv, _, _⟩ := matchIPHere_spec hm
          obtain ⟨hteq, _, _, _, _, _, hne⟩ := MatchInv.out hinv
          have hr : r.length < (b :: rest).length := by
            rw [hteq, List.length_append]
            cases tok with
            | nil => exact absurd rfl hne
            | cons x xs =>
              simp only [List.length_cons]
              omega
          simp only [hm]
          congr 1
          have hlen1 : r.length < fuel := by
            have h2 : (b :: rest).length ≤ fuel := Nat.lt_succ_iff.1 hlt
            simp only [List.length_cons] at h2 hr
            omega
          rw [ih fuel (Nat.lt_succ_self fuel) _ r hlen1,
              ih ((b :: rest).length) hlt _ r hr]
        | none =>
          simp only [hm]
          have hlen1 : rest.length < fuel := by
            simp only [List.length_cons] at hlt
            omega
          rw [ih fuel (Nat.lt_succ_self fuel) _ rest hlen1,
              ih ((b :: rest).length) hlt _ rest (Nat.lt_succ_self _)]

/-- Helper: a byte list whose head-word test fails starts with a non-digit. -/
theorem headWord_false_head {B : List Nat} (hB : headWord B = false) :
    ∀ b0 B2, B = b0 :: B2 → isDigitB b0 = false := by
  intro b0 B2 hBe
  subst hBe
  simp only [headWord] at hB
  simp only [isWordB, Bool.or_eq_false_iff] at hB
  exact hB.1.1.1

/-- Helper: alt1 ignores an appended tail behind a non-digit byte. -/
theorem alt1_append (X : List Nat) {b0 : Nat} (B2 : List Nat)
    (hb0 : isDigitB b0 = false) : alt1 (X ++ b0 :: B2) = alt1 X := by
  match X with
  | [] =>
    cases B2 with
    | nil => rfl
    | cons c1 B3 =>
      cases B3 with
      | nil => rfl
      | cons c2 B4 =>
        simp only [List.nil_append, alt1]
        split
        next hcond =>
          exfalso
          simp only [Bool.and_eq_true, decide_eq_true_eq] at hcond
          obtain ⟨⟨rfl, -⟩, -⟩ := hcond
          exact absurd hb0 (by decide)
        next => rfl
  | [a] =>
    cases B2 with
    | nil => rfl
    | cons c1 B3 =>
      simp only [List.cons_append, List.nil_append, alt1]
      split
      next hcond =>
        exfalso
        simp only [Bool.and_eq_true, decide_eq_true_eq] at hcond
        obtain ⟨⟨-, rfl⟩, -⟩ := hcond
        exact absurd hb0 (by decide)
      next => rfl
  | [a, b] =>
    simp only [List.cons_append, List.nil_append, alt1]
    split
    next hcond =>
      exfalso
      simp only [Bool.and_eq_true, decide_eq_true_eq] at hcond
      obtain ⟨-, h1, h2⟩ := hcond
      have hdig : isDigitB b0 = true := by
        simp only [isDigitB, Bool.and_eq_true, decide_eq_true_eq]
        omega
      rw [hdig] at hb0
      exact Bool.noConfusion hb0
    next => rfl
  | a :: b :: c :: X2 => rfl

/-- Helper: alt2 ignores an appended tail behind a non-digit byte. -/
theorem alt2_append (X : List Nat) {b0 : Nat} (B2 : List Nat)
    (hb0 : isDigitB b0 = false) : alt2 (X ++ b0 :: B2) = alt2 X := by
  match X with
  | [] =>
    cases B2 with
    | nil => rfl
    | cons c1 B3 =>
      cases B3 with
      | nil => rfl
      | cons c2 B4 =>
        simp only [List.nil_append, alt2]
        split
        next hcond =>
          exfalso
          simp only [Bool.and_eq_true, decide_eq_true_eq] at hcond
          obtain ⟨⟨rfl, -⟩, -⟩ := hcond
          exact absurd hb0 (by decide)
        next => rfl
  | [a] =>
    cases B2 with
    | nil => rfl
    | cons c1 B3 =>
      simp only [List.cons_append, List.nil_append, alt2]
      split
      next hcond =>
        exfalso
        simp only [Bool.and_eq_true, decide_eq_true_eq] at hcond
        obtain ⟨⟨-, h1, h2⟩, -⟩ := hcond
        have hdig : isDigitB b0 = true := by
          simp only [isDigitB, Bool.and_eq_true, decide_eq_true_eq]
          omega
        rw [hdig] at hb0
        exact Bool.noConfusion hb0
      next => rfl
  | [a, b] =>
    simp only [List.cons_append, List.nil_append, alt2]
    split
    next hcond =>
      exfalso
      simp only [Bool.and_eq_true, decide_eq_true_eq] at hcond
      obtain ⟨-, hcd⟩ := hcond
      rw [hcd] at hb0
      exact Bool.noConfusion hb0
    next => rfl
  | a :: b :: c :: X2 => rfl

/-- Helper: alt3with ignores an appended tail behind a non-digit byte. -/
theorem alt3with_append (X : List Nat) {b0 : Nat} (B2 : List Nat)
    (hb0 : isDigitB b0 = false) : alt3with (X ++ b0 :: B2) = alt3with X := by
  match X with
  | [] =>
    cases B2 with
    | nil => rfl
    | cons c1 B3 =>
      cases B3 with
      | nil =>
        simp only [List.nil_append, alt3with]
        split
        next hcond =>
          exfalso
          simp only [Bool.and_eq_true, Bool.or_eq_true, decide_eq_true_eq] at hcond
          rcases hcond.1 with rfl | rfl
          · exact absurd hb0 (by decide)
          · exact absurd hb0 (by decide)
        next => rfl
      | cons c2 B4 =>
        simp only [List.nil_append, alt3with]
        split
        next hcond =>
          exfalso
          simp only [Bool.and_eq_true, Bool.or_eq_true, decide_eq_true_eq] at hcond
          rcases hcond.1 with rfl | rfl
          · exact absurd hb0 (by decide)
          · exact absurd hb0 (by decide)
        next => rfl
  | [a] =>
    cases B2 with
    | nil =>
      simp only [List.cons_append, List.nil_append, alt3with]
      split
      next hcond =>
        exfalso
        simp only [Bool.and_eq_true, Bool.or_eq_true, decide_eq_true_eq] at hcond
        rw [hcond.2] at hb0
        exact Bool.noConfusion hb0
      next => rfl
    | cons c1 B3 =>
      simp only [List.cons_append, List.nil_append, alt3with]
      split
      next hcond =>
        exfalso
        simp only [Bool.and_eq_true, Bool.or_eq_true, decide_eq_true_eq] at hcond
        rw [hcond.2] at hb0
        exact Bool.noConfusion hb0
      next => rfl
  | [a, b] =>
    simp [List.cons_append, List.nil_append, alt3with, hb0]
  | a :: b :: c :: X2 => rfl

/-- Helper: alt3without ignores an appended tail behind a non-digit byte. -/
theorem alt3without_append (X : List Nat) {b0 : Nat} (B2 : List Nat)
    (hb0 : isDigitB b0 = false) : alt3without (X ++ b0 :: B2) = alt3without X := by
  match X with
  | [] =>
    simp only [List.nil_append]
    cases B2 with
    | nil => simp [alt3without, hb0]
    | cons c1 B3 => simp [alt3without, hb0]
  | [a] =>
    simp [List.cons_append, List.nil_append, alt3without, hb0]
  | a :: b :: X2 => rfl

/-- Helper: the octet segments of a chunk do not change when bytes behind a
    non-word boundary are appended. -/
theorem octetSegs_append (X B : List Nat) (hB : headWord B = false) :
    octetSegs (X ++ B) = octetSegs X := by
  cases B with
  | nil => rw [List.append_nil]
  | cons b0 B2 =>
    have hb0 : isDigitB b0 = false := headWord_false_head hB b0 B2 rfl
    rw [octetSegs, octetSegs, alt1_append X B2 hb0, alt2_append X B2 hb0,
      alt3with_append X B2 hb0, alt3without_append X B2 hb0]

/-- Helper: findSome? over pointwise map-related functions. -/
theorem findSome?_map_rel {α β γ : Type} {l : List α} {f : α → Option β}
    {g : α → Option γ} {m : γ → β}
    (h : ∀ a ∈ l, f a = (g a).map m) : l.findSome? f = (l.findSome? g).map m := by
  induction l with
  | nil => rfl
  | cons a as ih =>
    simp only [List.findSome?_cons]
    rw [h a (List.mem_cons_self a as)]
    cases g a with
    | none =>
      simp only [Option.map_none']
      exact ih (fun x hx => h x (List.mem_cons_of_mem a hx))
    | some b => simp only [Option.map_some']

/-- Helper: a suffix inherits the free-end property. -/
theorem freeEnd_of_decomp {X pre suf : List Nat} (h : FreeEnd X)
    (he : X = pre ++ suf) : FreeEnd suf := by
  intro c hc
  apply h
  rw [he, List.getLast?_append, hc]
  rfl

/-- Helper: the final octet matcher commutes with appending bytes behind a
    non-word boundary. -/
theorem matchLastOct_append (X B : List Nat) (hB : headWord B = false) :
    matchLastOct (X ++ B) = (matchLastOct X).map (fun pr => (pr.1, pr.2 ++ B)) := by
  simp only [matchLastOct]
  rw [octetSegs_append X B hB]
  apply findSome?_map_rel
  intro seg hseg
  obtain ⟨hoct, hpre, hdig⟩ := octetSegs_spec hseg
  have hle : seg.length ≤ X.length := by
    rw [hpre, List.length_append]
    omega
  cases hd : X.drop seg.length with
  | nil =>
    have hdropB : (X ++ B).drop seg.length = B := by
      rw [List.drop_append_of_le_length hle, hd]
      rfl
    simp only [hdropB, hd, hB]
    simp [headWord]
  | cons d t2 =>
    have hdropApp : (X ++ B).drop seg.length = d :: (t2 ++ B) := by
      rw [List.drop_append_of_le_length hle, hd]
      rfl
    simp only [hdropApp, hd]
    have hw : headWord (d :: (t2 ++ B)) = headWord (d :: t2) := rfl
    rw [hw]
    by_cases hwd : headWord (d :: t2) = true
    · rw [if_pos hwd, if_pos hwd]
      rfl
    · rw [if_neg hwd, if_neg hwd]
      rfl

/-- Helper: an octet-dot matcher commutes with appending bytes behind a
    non-word boundary, given its continuation does. -/
theorem matchOctDot_append {B : List Nat} (hB : headWord B = false)
    {k : List Nat → Option (List Nat × List Nat)}
    (hk : ∀ Y, FreeEnd Y → k (Y ++ B) = (k Y).map (fun pr => (pr.1, pr.2 ++ B)))
    (X : List Nat) (hX : FreeEnd X) :
    matchOctDot (X ++ B) k = (matchOctDot X k).map (fun pr => (pr.1, pr.2 ++ B)) := by
  simp only [matchOctDot]
  rw [octetSegs_append X B hB]
  apply findSome?_map_rel
  intro seg hseg
  obtain ⟨hoct, hpre, hdig⟩ := octetSegs_spec hseg
  have hle : seg.length ≤ X.length := by
    rw [hpre, List.length_append]
    omega
  cases hd : X.drop seg.length with
  | nil =>
    exfalso
    have hXeq : X = seg := by rw [hpre, hd, List.append_nil]
    have hne := octetB_ne_nil hoct
    obtain ⟨e, he⟩ := getLast?_some_of_ne_nil (l := seg) hne
    have hdigE : isDigitB e = true := hdig e (List.mem_of_mem_getLast? he)
    have hw := hX e (by rw [hXeq]; exact he)
    rw [isWordB] at hw
    simp [hdigE] at hw
  | cons d t2 =>
    have hdropApp : (X ++ B).drop seg.length = d :: (t2 ++ B) := by
      rw [List.drop_append_of_le_length hle, hd]
      rfl
    simp only [hdropApp, hd]
    by_cases hdot : d = dotB
    · rw [if_pos hdot, if_pos hdot]
      have ht2free : FreeEnd t2 :=
        freeEnd_of_decomp hX (show X = (seg ++ [d]) ++ t2 by rw [hpre, hd]; simp)
      rw [hk t2 ht2free]
      cases k t2 with
      | none => rfl
      | some pr =>
        obtain ⟨x1, x2⟩ := pr
        rfl
    · rw [if_neg hdot, if_neg hdot]
      rfl

/-- Helper: a whole pattern attempt commutes with appending bytes behind a
    non-word boundary. -/
theorem matchIPHere_append {X B : List Nat} (hX : FreeEnd X) (hB : headWord B = false)
    (hne : X ≠ []) (p : Bool) :
    matchIPHere p (X ++ B) = (matchIPHere p X).map (fun pr => (pr.1, pr.2 ++ B)) := by
  have hhw : headWord (X ++ B) = headWord X := by
    cases X with
    | nil => exact absurd rfl hne
    | cons x xs => rfl
  simp only [matchIPHere]
  rw [hhw]
  by_cases hb : (p == headWord X) = true
  · rw [if_pos hb, if_pos hb]
    rfl
  · rw [if_neg hb, if_neg hb]
    exact matchOctDot_append hB
      (fun Y hY => matchOctDot_append hB
        (fun Z hZ => matchOctDot_append hB
          (fun W _ => matchLastOct_append W B hB) Z hZ) Y hY) X hX

/-- Helper: boolean free-end implies the propositional form. -/
theorem freeEnd_of_freeEndB {t : List Nat} (h : freeEndB t = true) : FreeEnd t := by
  intro c hc
  simp only [freeEndB] at h
  rw [hc] at h
  simpa using h

/-- Helper: the scanning loop distributes over an input split at a boundary
    flanked by non-word bytes on both sides. -/
theorem findAllAux_append :
    ∀ (n : Nat) (X B : List Nat) (p : Bool), X.length ≤ n → FreeEnd X →
      headWord B = false → (X = [] → p = false) →
      findAllAux ((X ++ B).length + 1) p (X ++ B) =
        findAllAux (X.length + 1) p X ++ findAllAux (B.length + 1) false B := by
  intro n
  induction n with
  | zero =>
    intro X B p hlen hX hB hp
    have hXnil : X = [] := List.length_eq_zero.1 (Nat.le_zero.1 hlen)
    subst hXnil
    rw [hp rfl]
    simp [findAllAux]
  | succ n ih =>
    intro X B p hlen hX hB hp
    cases X with
    | nil =>
      rw [hp rfl]
      simp [findAllAux]
    | cons b rest =>
      have hm0 : matchIPHere p ((b :: rest) ++ B) =
          (matchIPHere p (b :: rest)).map (fun pr => (pr.1, pr.2 ++ B)) :=
        matchIPHere_append hX hB (by simp) p
      cases hmi : matchIPHere p (b :: rest) with
      | none =>
        rw [hmi] at hm0
        simp only [List.cons_append] at hm0 ⊢
        simp only [findAllAux, hm0, hmi]
        rw [findAllAux_fuel ((b :: (rest ++ B)).length) (isWordB b) (rest ++ B) (by simp)]
        rw [findAllAux_fuel ((b :: rest).length) (isWordB b) rest (by simp)]
        apply ih rest B (isWordB b) ?_ ?_ hB ?_
        · simp only [List.length_cons] at hlen
          omega
        · exact freeEnd_of_decomp hX (show b :: rest = [b] ++ rest from rfl)
        · intro hr0
          exact hX b (by rw [hr0]; rfl)
      | some pr =>
        obtain ⟨tok, r⟩ := pr
        rw [hmi] at hm0
        simp only [Option.map_some'] at hm0
        obtain ⟨hinv, _, _⟩ := matchIPHere_spec hmi
        obtain ⟨hteq, _, _, _, hlast, _, hne2⟩ := MatchInv.out hinv
        obtain ⟨d, hd2⟩ := getLast?_some_of_ne_nil hne2
        have hrne : r ≠ [] := by
          intro h0
          subst h0
          have hXtok : b :: rest = tok := by simpa using hteq
          have hwB := hX d (by rw [hXtok]; exact hd2)
          have hdd : isDigitB d = true := hlast d hd2
          rw [isWordB] at hwB
          simp [hdd] at hwB
        have hrfree : FreeEnd r := freeEnd_of_decomp hX hteq
        have hrlen : r.length < (b :: rest).length := by
          rw [hteq, List.length_append]
          cases tok with
          | nil => exact absurd rfl hne2
          | cons x xs =>
            simp only [List.length_cons]
            omega
        have hb1 : (r ++ B).length < (b :: (rest ++ B)).length := by
          simp only [List.length_append, List.length_cons] at hrlen ⊢
          omega
        simp only [List.cons_append] at hm0 ⊢
        simp only [findAllAux, hm0, hmi]
        simp only [List.cons_append]
        congr 1
        rw [findAllAux_fuel ((b :: (rest ++ B)).length) _ (r ++ B) hb1,
            findAllAux_fuel ((b :: rest).length) _ r hrlen]
        apply ih r B _ ?_ hrfree hB (fun h0 => absurd h0 hrne)
        simp only [List.length_cons] at hlen
        simp only [List.length_cons] at hrlen
        omega

/-- Helper: findall distributes over a split whose boundary has non-word bytes
    on both sides. -/
theorem findAll_append (A B : List Nat) (hA : FreeEnd A) (hB : headWord B = false) :
    findAll (A ++ B) = findAll A ++ findAll B := by
  cases A with
  | nil => simp [findAll, findAllAux]
  | cons b rest =>
    simp only [findAll]
    exact findAllAux_append (b :: rest).length (b :: rest) B false (le_refl _) hA hB
      (by simp)

/-- Helper: a flanked chunk list has a non-empty first chunk. -/
theorem flankedB_ne_nil {c : List Nat} {rest : List (List Nat)}
    (h : flankedB (c :: rest) = true) : c ≠ [] := by
  cases rest with
  | nil =>
    intro h0
    subst h0
    simp [flankedB] at h
  | cons c2 r2 =>
    intro h0
    subst h0
    simp only [flankedB, Bool.and_eq_true] at h
    have := h.1.1.1
    simp at this

/-- Helper: findall over the concatenation of a flanked chunk list is the
    concatenation of the per-chunk findalls. -/
theorem findAll_flatten (css : List (List Nat)) (h : flankedB css = true) :
    findAll css.flatten = (css.map findAll).flatten := by
  induction css with
  | nil => rfl
  | cons c css ih =>
    cases css with
    | nil => simp
    | cons c2 rest =>
      simp only [flankedB, Bool.and_eq_true] at h
      obtain ⟨⟨⟨hne, hfe⟩, hhw⟩, hfl⟩ := h
      have hc2ne : c2 ≠ [] := flankedB_ne_nil hfl
      have hBhead : headWord ((c2 :: rest).flatten) = false := by
        rw [List.flatten_cons]
        cases hc2 : c2 with
        | nil => exact absurd hc2 hc2ne
        | cons x xs =>
          have hx : headWord (x :: xs) = false := by
            rw [← hc2]
            simpa using hhw
          simp only [headWord] at hx
          simp only [List.cons_append, headWord]
          exact hx
      rw [List.flatten_cons,
        findAll_append c ((c2 :: rest).flatten) (freeEnd_of_freeEndB hfe) hBhead,
        ih hfl]
      simp

/-- Helper: merging a flanked chunk list gives the same members as processing
    the whole input as one chunk. -/
theorem runChunks_flatten_mem {css : List (List Nat)} (h : flankedB css = true)
    (x : List Nat) :
    (x ∈ (runChunks css).1 ↔ x ∈ (runChunks [css.flatten]).1) ∧
    (x ∈ (runChunks css).2 ↔ x ∈ (runChunks [css.flatten]).2) := by
  have hcand : ∀ y : List Nat, (∃ c ∈ css, y ∈ (findAll c).map decodeIgnore) ↔
      y ∈ (findAll css.flatten).map decodeIgnore := by
    intro y
    rw [findAll_flatten css h]
    constructor
    · rintro ⟨c, hc, hy⟩
      obtain ⟨tok, htok, rfl⟩ := List.mem_map.1 hy
      exact List.mem_map.2
        ⟨tok, List.mem_flatten.2 ⟨findAll c, List.mem_map.2 ⟨c, hc, rfl⟩, htok⟩, rfl⟩
    · intro hy
      obtain ⟨tok, htok, rfl⟩ := List.mem_map.1 hy
      obtain ⟨l, hl, htl⟩ := List.mem_flatten.1 htok
      obtain ⟨c, hc, rfl⟩ := List.mem_map.1 hl
      exact ⟨c, hc, List.mem_map.2 ⟨tok, htl, rfl⟩⟩
  constructor
  · rw [runChunks_mem.1, runChunks_mem.1]
    constructor
    · rintro ⟨c, hc, hx⟩
      obtain ⟨hcand1, hv⟩ := process_chunk_mem.1.1 hx
      exact ⟨css.flatten, by simp,
        process_chunk_mem.1.2 ⟨(hcand _).1 ⟨c, hc, hcand1⟩, hv⟩⟩
    · rintro ⟨c0, hc0, hx⟩
      simp only [List.mem_singleton] at hc0
      subst hc0
      obtain ⟨hcand1, hv⟩ := process_chunk_mem.1.1 hx
      obtain ⟨c, hc, hy⟩ := (hcand _).2 hcand1
      exact ⟨c, hc, process_chunk_mem.1.2 ⟨hy, hv⟩⟩
  · rw [runChunks_mem.2, runChunks_mem.2]
    constructor
    · rintro ⟨c, hc, hx⟩
      obtain ⟨hcand1, hv⟩ := process_chunk_mem.2.1 hx
      exact ⟨css.flatten, by simp,
        process_chunk_mem.2.2 ⟨(hcand _).1 ⟨c, hc, hcand1⟩, hv⟩⟩
    · rintro ⟨c0, hc0, hx⟩
      simp only [List.mem_singleton] at hc0
      subst hc0
      obtain ⟨hcand1, hv⟩ := process_chunk_mem.2.1 hx
      obtain ⟨c, hc, hy⟩ := (hcand _).2 hcand1
      exact ⟨c, hc, process_chunk_mem.2.2 ⟨hy, hv⟩⟩

/-- Helper: both merge accumulators are duplicate-free. -/
theorem runChunks_nodup (css : List (List Nat)) :
    (runChunks css).1.Nodup ∧ (runChunks css).2.Nodup :=
  ⟨List.nodup_dedup _, List.nodup_dedup _⟩

/-- Helper: the pipeline output of a flanked chunk list equals that of the
    whole input processed as a single chunk. -/
theorem pipelineOut_flatten {css : List (List Nat)} (h : flankedB css = true) :
    pipelineOut css = pipelineOut [css.flatten] := by
  have h1 : (runChunks css).1.Perm (runChunks [css.flatten]).1 := by
    apply List.perm_of_nodup_nodup_toFinset_eq (runChunks_nodup css).1
      (runChunks_nodup [css.flatten]).1
    ext y
    simp only [List.mem_toFinset]
    exact (runChunks_flatten_mem h y).1
  have h2 : (runChunks css).2.Perm (runChunks [css.flatten]).2 := by
    apply List.perm_of_nodup_nodup_toFinset_eq (runChunks_nodup css).2
      (runChunks_nodup [css.flatten]).2
    ext y
    simp only [List.mem_toFinset]
    exact (runChunks_flatten_mem h y).2
  simp only [pipelineOut]
  rw [sortLex_eq_of_perm h1, sortLex_eq_of_perm h2]

/-- Helper: permuting the chunk list permutes both accumulators. -/
theorem runChunks_perm {css css2 : List (List Nat)} (h : css.Perm css2) :
    (runChunks css).1.Perm (runChunks css2).1 ∧
    (runChunks css).2.Perm (runChunks css2).2 := by
  constructor
  · simp only [runChunks]
    exact (((h.map process_chunk).map Prod.fst).flatten).dedup
  · simp only [runChunks]
    exact (((h.map process_chunk).map Prod.snd).flatten).dedup

/-- C5 counterexample: the inputs of the two splittings are equal and neither
    splitting has an IPv4 literal straddling a chunk boundary, yet the final
    sorted results differ: the unsplit input a1.2.3.4 yields nothing (the
    letter blocks the word boundary) while the splitting a / 1.2.3.4 yields
    the public address 1.2.3.4 (the chunk boundary removes the letter from the
    scanner's view). -/
theorem c5_counterexample :
    [sLetterIP].flatten = [sLetter, sOneTwo].flatten ∧
    noStraddleB [sLetterIP] = true ∧
    noStraddleB [sLetter, sOneTwo] = true ∧
    pipelineOut [sLetterIP] ≠ pipelineOut [sLetter, sOneTwo] :=
  ⟨by decide, by decide, by decide, by decide⟩

/-- C5 amended: the merge is order-independent: permuting the chunk list (any
    completion order) gives the same final sorted (private, public) result;
    and two splittings of the same input agree whenever every internal chunk
    boundary of each splitting is flanked by NON-WORD bytes on both sides (a
    condition that implies no literal straddles a boundary; the unstrengthened
    no-straddle condition is not sufficient, by the counterexample). -/
theorem c5_amended :
    (∀ css css2 : List (List Nat), css.Perm css2 → pipelineOut css = pipelineOut css2) ∧
    (∀ css css2 : List (List Nat), flankedB css = true → flankedB css2 = true →
      css.flatten = css2.flatten → pipelineOut css = pipelineOut css2) := by
  constructor
  · intro css css2 h
    obtain ⟨h1, h2⟩ := runChunks_perm h
    simp only [pipelineOut]
    rw [sortLex_eq_of_perm h1, sortLex_eq_of_perm h2]
  · intro css css2 h1 h2 hf
    rw [pipelineOut_flatten h1, pipelineOut_flatten h2, hf]

/-- C5 amended witness: a concrete permutation of two chunks, and a concrete
    flanked splitting against the whole input as one chunk. -/
theorem c5_amended_witness :
    pipelineOut [sOneTwoFive, sZero] = pipelineOut [sZero, sOneTwoFive] ∧
    pipelineOut [sSpIpSp, sSpIp2] = pipelineOut [sSpIpSp ++ sSpIp2] := by
  constructor
  · exact c5_amended.1 _ _ (by decide)
  · have h := c5_amended.2 [sSpIpSp, sSpIp2] [sSpIpSp ++ sSpIp2]
      (by decide) (by decide) (by decide)
    simpa using h

end IPExtract
